import Mathlib

/-!
Verification of the expression/geometry/quadrature core of the
solid-of-revolution visualizer (src/app.js).

JavaScript numbers are modelled exactly: a finite value is a rational
number, and the three non-finite values (NaN, Infinity, -Infinity) are
explicit constructors.  Floating-point rounding is outside the model;
all arithmetic on finite values is exact.
-/

/-- A JavaScript number: a finite rational or one of the three
non-finite values. -/
inductive JsVal where
  | num (q : ℚ)
  | inf
  | ninf
  | nan
deriving DecidableEq

/-- JavaScript `isFinite`. -/
def JsVal.isFinite : JsVal → Bool
  | .num _ => true
  | _ => false

/-- JavaScript `isNaN`. -/
def JsVal.isNaN : JsVal → Bool
  | .nan => true
  | _ => false

/-- The finite payload of a JavaScript number, if any. -/
def JsVal.toFinite : JsVal → Option ℚ
  | .num q => some q
  | _ => none

/-- Finite payload with junk value 0 for the non-finite constructors;
only ever applied to values proved finite. -/
def JsVal.toQ : JsVal → ℚ
  | .num q => q
  | _ => 0

/-- JavaScript `<=` on numbers: false whenever either side is NaN. -/
def jsLe : JsVal → JsVal → Bool
  | .nan, _ => false
  | _, .nan => false
  | .ninf, _ => true
  | _, .ninf => false
  | _, .inf => true
  | .inf, _ => false
  | .num a, .num b => decide (a ≤ b)

/-- JavaScript `<` on numbers: false whenever either side is NaN. -/
def jsLt : JsVal → JsVal → Bool
  | .nan, _ => false
  | _, .nan => false
  | .ninf, .ninf => false
  | .ninf, _ => true
  | _, .ninf => false
  | .inf, _ => false
  | _, .inf => true
  | .num a, .num b => decide (a < b)

/-- JavaScript `>=`. -/
def jsGe (a b : JsVal) : Bool := jsLe b a

/-- JavaScript `>`. -/
def jsGt (a b : JsVal) : Bool := jsLt b a

/-- JavaScript `Math.max` on two numbers: NaN-propagating. -/
def jsMax2 (a b : JsVal) : JsVal :=
  if a.isNaN || b.isNaN then .nan else if jsLt a b then b else a

/-- JavaScript `Math.min` on two numbers: NaN-propagating. -/
def jsMin2 (a b : JsVal) : JsVal :=
  if a.isNaN || b.isNaN then .nan else if jsLt b a then b else a

/-- `Math.max(...values)`: fold from -Infinity. -/
def jsMaxList (l : List JsVal) : JsVal := l.foldl jsMax2 .ninf

/-- `Math.min(...values)`: fold from Infinity. -/
def jsMinList (l : List JsVal) : JsVal := l.foldl jsMin2 .inf

/-- One entry of `compiledFuncs` built at the top of `evaluatePiecewise`
(src/app.js lines 173-179): the compiled expression (the composition of
`safeEval` and `preprocessInput` applied to the formula text, a
JavaScript-number-valued function of x) together with the two evaluated
domain bounds.  An empty range field evaluates to -Infinity / Infinity
(lines 176-177); otherwise the bound is whatever JavaScript number the
range formula evaluates to. -/
structure CompiledFunc where
  func : ℚ → JsVal
  rangeStart : JsVal
  rangeEnd : JsVal

/-- The `mode` argument of `evaluatePiecewise` (line 171): the string
values used at the call sites are only ever the two below. -/
inductive EnvelopeMode where
  | max
  | min
deriving DecidableEq

/-- The active-set filter `x >= f.range[0] && x <= f.range[1]`
(src/app.js line 183). -/
def activeAt (x : ℚ) (f : CompiledFunc) : Bool :=
  jsGe (.num x) f.rangeStart && jsLe (.num x) f.rangeEnd

/-- Body of the per-x closure inside `evaluatePiecewise`
(src/app.js lines 181-195). -/
def evalAt (funcs : List CompiledFunc) (x : ℚ) (mode : EnvelopeMode) : JsVal :=
  let active := funcs.filter (fun f => activeAt x f)
  if active.isEmpty then .num 0
  else
    let values := (active.map (fun f => f.func x)).filter JsVal.isFinite
    if values.isEmpty then .num 0
    else
      match mode with
      | .max => jsMaxList values
      | .min => jsMinList values

/-- `evaluatePiecewise` (src/app.js lines 171-196). -/
def evaluatePiecewise (funcsList : List CompiledFunc) (xValues : List ℚ)
    (mode : EnvelopeMode) : List JsVal :=
  xValues.map (fun x => evalAt funcsList x mode)

/-- The active set at x (the `active` list of line 183). -/
def activePieces (funcs : List CompiledFunc) (x : ℚ) : List CompiledFunc :=
  funcs.filter (fun f => activeAt x f)

/-- The finite evaluations of the active pieces at x (the `values` list
of line 187, as rationals). -/
def activeFiniteVals (funcs : List CompiledFunc) (x : ℚ) : List ℚ :=
  ((activePieces funcs x).map (fun f => f.func x)).filterMap JsVal.toFinite

/-- The invalid check of `updateSolid` (src/app.js line 626):
`yOuter.some(v => !isFinite(v)) || yInner.some(v => !isFinite(v))`. -/
def hasInvalid (yOuter yInner : List JsVal) : Bool :=
  yOuter.any (fun v => !v.isFinite) || yInner.any (fun v => !v.isFinite)

/-- The NaN fallback for an evaluated bound, `if (isNaN(a)) a = 0`
(src/app.js lines 579-580). -/
def boundFallback (v : JsVal) : JsVal := if v.isNaN then .num 0 else v

/-- JavaScript subtraction on numbers (IEEE semantics on the special
values: Infinity - Infinity is NaN, NaN propagates). -/
def jsSub : JsVal → JsVal → JsVal
  | .nan, _ => .nan
  | _, .nan => .nan
  | .num a, .num b => .num (a - b)
  | .num _, .inf => .ninf
  | .num _, .ninf => .inf
  | .inf, .num _ => .inf
  | .inf, .inf => .nan
  | .inf, .ninf => .inf
  | .ninf, .num _ => .ninf
  | .ninf, .inf => .ninf
  | .ninf, .ninf => .nan

/-- JavaScript addition on numbers (IEEE semantics on the special
values: Infinity + (-Infinity) is NaN, NaN propagates). -/
def jsAdd : JsVal → JsVal → JsVal
  | .nan, _ => .nan
  | _, .nan => .nan
  | .num a, .num b => .num (a + b)
  | .num _, .inf => .inf
  | .num _, .ninf => .ninf
  | .inf, .num _ => .inf
  | .inf, .inf => .inf
  | .inf, .ninf => .nan
  | .ninf, .num _ => .ninf
  | .ninf, .inf => .nan
  | .ninf, .ninf => .ninf

/-- JavaScript `Math.abs`. -/
def jsAbs : JsVal → JsVal
  | .num q => .num |q|
  | .inf => .inf
  | .ninf => .inf
  | .nan => .nan

/-- The bounds normalization of `updateSolid` (src/app.js lines 588-589):
`if (a > b) [a, b] = [b, a]; if (Math.abs(a - b) < 0.01) b = a + 0.01;`
The inputs are the evaluated bound values after the NaN fallback of
lines 579-580 — arbitrary JavaScript numbers, since that fallback
replaces only NaN (an evaluated Infinity, e.g. from the formula `1/0`,
reaches these lines unchanged). -/
def normalizeBounds (a b : JsVal) : JsVal × JsVal :=
  let p := if jsGt a b then (b, a) else (a, b)
  if jsLt (jsAbs (jsSub p.1 p.2)) (.num (1 / 100)) then (p.1, jsAdd p.1 (.num (1 / 100)))
  else p

/-- `CONFIG.resolution` (src/app.js line 16). -/
def CONFIG_resolution : ℕ := 100

/-- The display-resolution sample sites of `updateSolid`
(src/app.js lines 592-595): `a + (b - a) * (i / resolution)` for
i = 0..resolution. -/
def sampleXs (a b : ℚ) : List ℚ :=
  (List.range (CONFIG_resolution + 1)).map
    (fun i => a + (b - a) * ((i : ℚ) / (CONFIG_resolution : ℚ)))

/-- Radii computation in the smooth-lathe path of `updateSolid`
(src/app.js lines 650-663), for one sample site with upper value f and
lower value g. -/
def latheRadii (f g : ℚ) : ℚ × ℚ :=
  if f * g < 0 then (max |f| |g|, 0)
  else (max |f| |g|, min |f| |g|)

/-- Radii computation in the discrete-disk path `createDisks`
(src/app.js lines 1014-1023), at a sub-interval midpoint. -/
def diskRadii (yUpper yLower : ℚ) : ℚ × ℚ :=
  if yUpper * yLower < 0 then (max |yUpper| |yLower|, 0)
  else (max |yUpper| |yLower|, min |yUpper| |yLower|)

/-- Radii computation in the quadrature loop of `updateMeasurements`
(src/app.js lines 1129-1141), on the segment-averaged samples. -/
def quadRadii (u l : ℚ) : ℚ × ℚ :=
  if u * l < 0 then (max |u| |l|, 0)
  else (max |u| |l|, min |u| |l|)

/-- Modelled from the spec: the cross-axis rule of section 4.3 with
"strictly opposite sign" spelled out as a sign condition. -/
def crossAxisSpecRadii (u l : ℚ) : ℚ × ℚ :=
  if (0 < u ∧ l < 0) ∨ (u < 0 ∧ 0 < l) then (max |u| |l|, 0)
  else (max |u| |l|, min |u| |l|)

/-- The quadrature sub-interval count `n = 1000`
(src/app.js line 1108). -/
def quadN : ℕ := 1000

/-- The quadrature sample sites (src/app.js lines 1109-1115):
`a + i * dx` with `dx = (b - a) / n`, for i = 0..n. -/
def quadXs (a b : ℚ) : List ℚ :=
  (List.range (quadN + 1)).map (fun i => a + (i : ℚ) * ((b - a) / (quadN : ℚ)))

/-- The sampled envelope as rationals.  `evaluatePiecewise` only ever
returns finite values (proved below), so extracting the rational payload
is faithful to the JavaScript arrays `yUpper`/`yLower`. -/
def envelopeQ (funcs : List CompiledFunc) (xs : List ℚ) : List ℚ :=
  (evaluatePiecewise funcs xs EnvelopeMode.max).map JsVal.toQ

/-- The segment average `(y[i] + y[i + 1]) / 2` of the quadrature loop
(src/app.js lines 1126-1127). -/
def uAvg (y : List ℚ) (i : ℕ) : ℚ := (y.getD i 0 + y.getD (i + 1) 0) / 2

/-- One iteration of the quadrature accumulation loop
(src/app.js lines 1124-1145). -/
def quadStep (yU yL : List ℚ) (dx : ℚ) (acc : ℚ × ℚ) (i : ℕ) : ℚ × ℚ :=
  let u := (yU.getD i 0 + yU.getD (i + 1) 0) / 2
  let l := (yL.getD i 0 + yL.getD (i + 1) 0) / 2
  let r := quadRadii u l
  (acc.1 + (r.1 * r.1 - r.2 * r.2) * dx, acc.2 + |u - l| * dx)

/-- The accumulated (volume, area2D) sums after the quadrature loop,
before the final angle scaling (src/app.js lines 1121-1145). -/
def quadSums (yU yL : List ℚ) (dx : ℚ) : ℚ × ℚ :=
  (List.range quadN).foldl (quadStep yU yL dx) (0, 0)

/-- `updateMeasurements` (src/app.js lines 1107-1159): the
(volume, area2D) pair, with the final scaling
`volume = |π * volume * (angleDeg / 360)|` of line 1149 and `area2D`
returned as accumulated. -/
noncomputable def updateMeasurements (upper lower : List CompiledFunc)
    (a b angleDeg : ℚ) : ℝ × ℚ :=
  let dx := (b - a) / (quadN : ℚ)
  let xs := quadXs a b
  let yU := envelopeQ upper xs
  let yL := envelopeQ lower xs
  let s := quadSums yU yL dx
  (|Real.pi * (s.1 : ℝ) * ((angleDeg : ℝ) / 360)|, s.2)

/-- Modelled from the spec (section 4.4): the closed-form volume
`|π * (Σ (rOuter² - rInner²) * dx) * (angleDeg / 360)|` over the N
sub-intervals, with endpoint-averaged samples and the cross-axis rule. -/
noncomputable def specVolume (yU yL : List ℚ) (dx θ : ℚ) : ℝ :=
  |Real.pi *
      ((∑ i in Finset.range quadN,
          ((crossAxisSpecRadii (uAvg yU i) (uAvg yL i)).1 ^ 2 -
            (crossAxisSpecRadii (uAvg yU i) (uAvg yL i)).2 ^ 2) * dx : ℚ) : ℝ) *
    ((θ : ℝ) / 360)|

/-- Modelled from the spec (section 4.4): the closed-form 2-D area
`Σ |upperAvg - lowerAvg| * dx`, not scaled by the revolution angle. -/
def specArea (yU yL : List ℚ) (dx : ℚ) : ℚ :=
  ∑ i in Finset.range quadN, |uAvg yU i - uAvg yL i| * dx

/-- A JavaScript value as seen by the `typeof result === 'number'` test
of `safeEval` (src/app.js line 143): either a number or some other
value (string, object, undefined, function, ...). -/
inductive JsResult where
  | number (v : JsVal)
  | nonNumber

/-- `safeEval` (src/app.js lines 132-147).  The host evaluation of the
rewritten expression (the `new Function` construction and call) is
abstracted by its outcome: either a thrown exception or a produced
JavaScript value.  The wrapper catches every exception and maps every
non-number result to NaN. -/
def safeEval (outcome : Except Unit JsResult) : JsVal :=
  match outcome with
  | .error _ => .nan
  | .ok (.number v) => v
  | .ok .nonNumber => .nan

/-- JavaScript regex word character, the class `\w` = [A-Za-z0-9_],
which also delimits the word-boundary assertion `\b`. -/
def isWordChar (c : Char) : Bool := c.isAlpha || c.isDigit || c = '_'

/-- Word boundary holds before the current position, given the
preceding character (none at the start of the string). -/
def boundaryBefore : Option Char → Bool
  | none => true
  | some c => !isWordChar c

/-- Word boundary holds after a match, given the remaining input. -/
def boundaryAfterOk : List Char → Bool
  | [] => true
  | c :: _ => !isWordChar c

/-- The regex class [a-z]. -/
def isLowerAZ (c : Char) : Bool := 'a' ≤ c && c ≤ 'z'

/-- String trim (leading and trailing whitespace). -/
def trimList (l : List Char) : List Char :=
  ((l.dropWhile Char.isWhitespace).reverse.dropWhile Char.isWhitespace).reverse

/-- Split a character list at its first bar: (before, after). -/
def splitBar : List Char → Option (List Char × List Char)
  | [] => none
  | c :: rest =>
    if c = '|' then some ([], rest)
    else (splitBar rest).map (fun p => (c :: p.1, p.2))

/-- The absolute-value rewriting, one global pass of the bar-pair regex
replacing each single-level bar group by an abs(...) call
(src/app.js line 84).  The fuel argument only bounds recursion depth;
every step consumes at least one character, so any fuel of at least the
input length gives the exact JavaScript behavior. -/
def absBarsAux : ℕ → List Char → List Char
  | 0, l => l
  | _ + 1, [] => []
  | fuel + 1, c :: rest =>
    if c = '|' then
      match splitBar rest with
      | some (content, after) =>
        if content.isEmpty then c :: absBarsAux fuel rest
        else ('a' :: 'b' :: 's' :: '(' :: content) ++ (')' :: absBarsAux fuel after)
      | none => c :: absBarsAux fuel rest
    else c :: absBarsAux fuel rest

/-- The exponent rewriting: every caret becomes the two-character power
operator (src/app.js line 87). -/
def caretRw : List Char → List Char
  | [] => []
  | c :: rest => if c = '^' then '*' :: '*' :: caretRw rest else c :: caretRw rest

/-- The indexed-base logarithm rewriting (src/app.js line 91): a
word-boundary log followed by at least one digit and an opening
parenthesis becomes a two-argument log_base call. -/
def logBaseAux : ℕ → Option Char → List Char → List Char
  | 0, _, l => l
  | _ + 1, _, [] => []
  | fuel + 1, prev, c :: rest =>
    if c = 'l' && boundaryBefore prev then
      match rest with
      | 'o' :: 'g' :: rest2 =>
        (match rest2.takeWhile Char.isDigit, rest2.dropWhile Char.isDigit with
         | d :: ds, '(' :: rest3 =>
           ('l' :: 'o' :: 'g' :: '_' :: 'b' :: 'a' :: 's' :: 'e' :: '(' :: d :: ds) ++
             (',' :: logBaseAux fuel (some '(') rest3)
         | _, _ => c :: logBaseAux fuel (some c) rest)
      | _ => c :: logBaseAux fuel (some c) rest
    else c :: logBaseAux fuel (some c) rest

/-- Implicit multiplication, pass 1 (src/app.js line 95): a digit
immediately followed by a lowercase letter or an opening parenthesis.
Both matched characters are consumed, as with a JavaScript global
regex. -/
def implA : List Char → List Char
  | a :: b :: rest =>
    if a.isDigit && (isLowerAZ b || b = '(') then a :: '*' :: b :: implA rest
    else a :: implA (b :: rest)
  | l => l

/-- Implicit multiplication, pass 2 (src/app.js line 96): a closing
parenthesis immediately followed by a digit. -/
def implB : List Char → List Char
  | a :: b :: rest =>
    if a = ')' && b.isDigit then a :: '*' :: b :: implB rest
    else a :: implB (b :: rest)
  | l => l

/-- Implicit multiplication, pass 3 (src/app.js line 97): a closing
parenthesis immediately followed by a lowercase letter. -/
def implC : List Char → List Char
  | a :: b :: rest =>
    if a = ')' && isLowerAZ b then a :: '*' :: b :: implC rest
    else a :: implC (b :: rest)
  | l => l

/-- One global pass replacing a word-boundary-delimited identifier by
its host name (src/app.js lines 121-124).  `prev` is the character
preceding the scan position in the string being scanned; after a match,
scanning resumes past the matched key. -/
def replaceWordAux (key val : List Char) : ℕ → Option Char → List Char → List Char
  | 0, _, l => l
  | _ + 1, _, [] => []
  | fuel + 1, prev, c :: rest =>
    if key.isPrefixOf (c :: rest) && boundaryBefore prev
        && boundaryAfterOk ((c :: rest).drop key.length) then
      val ++ replaceWordAux key val fuel (some (key.getLastD c)) ((c :: rest).drop key.length)
    else c :: replaceWordAux key val fuel (some c) rest

/-- The identifier table of `preprocessInput` (src/app.js lines
100-117) in the order produced by the stable length-descending sort of
line 119. -/
def mathFunctionsSorted : List (List Char × List Char) :=
  [("arcsin".toList, "Math.asin".toList),
   ("arccos".toList, "Math.acos".toList),
   ("arctan".toList, "Math.atan".toList),
   ("sqrt".toList, "Math.sqrt".toList),
   ("asin".toList, "Math.asin".toList),
   ("acos".toList, "Math.acos".toList),
   ("atan".toList, "Math.atan".toList),
   ("sin".toList, "Math.sin".toList),
   ("cos".toList, "Math.cos".toList),
   ("tan".toList, "Math.tan".toList),
   ("abs".toList, "Math.abs".toList),
   ("exp".toList, "Math.exp".toList),
   ("log".toList, "Math.log10".toList),
   ("ln".toList, "Math.log".toList),
   ("pi".toList, "Math.PI".toList),
   ("e".toList, "Math.E".toList)]

/-- `preprocessInput` (src/app.js lines 79-127): lowercase and trim,
empty input canonicalizes to "0", then the fixed rewriting pipeline:
absolute-value bars, exponent operator, indexed-base logarithms,
implicit multiplication, identifier mapping. -/
def preprocessInput (expr : String) : String :=
  let s0 := trimList (expr.toList.map Char.toLower)
  if s0.isEmpty then "0"
  else
    let s1 := absBarsAux (s0.length + 1) s0
    let s2 := caretRw s1
    let s3 := logBaseAux (s2.length + 1) none s2
    let s4 := implC (implB (implA s3))
    let s5 := mathFunctionsSorted.foldl
      (fun acc kv => replaceWordAux kv.1 kv.2 (acc.length + 1) none acc) s4
    String.mk s5

/-- The log_base helper installed in the evaluator scope
(src/app.js line 138): `log_base(b, v) = Math.log(v) / Math.log(b)`
with `Math.log` the natural logarithm. -/
noncomputable def log_base (b v : ℝ) : ℝ := Real.log v / Real.log b

/-- The host `Math.log10` (the target that `preprocessInput` maps bare
`log` to, src/app.js line 108): the base-10 logarithm. -/
noncomputable def mathLog10 (v : ℝ) : ℝ := Real.logb 10 v

/-- The compiled form of the formula `sqrt(-1-x^2)` on an unrestricted
domain: since -1 - x² < 0 for every x, the evaluation
`Math.sqrt(-1-x**2)` yields NaN at every input, in particular at every
display-resolution sample site. -/
def sqrtNegPiece : CompiledFunc := ⟨fun _ => .nan, .ninf, .inf⟩

/-- A simple concrete piece (the identity formula `x` on an
unrestricted domain) used to instantiate general theorems. -/
def c2DemoPiece : CompiledFunc := ⟨fun x => .num x, .ninf, .inf⟩

/-- A one-piece curve group. -/
def c2Demo : List CompiledFunc := [c2DemoPiece]

/-- A piece whose evaluated domain is reversed (start 2, end 1). -/
def badRangePiece : CompiledFunc := ⟨fun x => .num x, .num 2, .num 1⟩

/-!  Helper lemmas. -/

lemma filter_isFinite_eq (l : List JsVal) :
    l.filter JsVal.isFinite = (l.filterMap JsVal.toFinite).map JsVal.num := by
  induction l with
  | nil => rfl
  | cons h t ih =>
    cases h <;>
      simp [List.filter_cons, List.filterMap_cons, JsVal.isFinite, JsVal.toFinite, ih]

lemma jsMax2_nums (a b : ℚ) : jsMax2 (.num a) (.num b) = .num (max a b) := by
  by_cases h : a < b
  · simp [jsMax2, JsVal.isNaN, jsLt, h, max_eq_right h.le]
  · simp [jsMax2, JsVal.isNaN, jsLt, h, max_eq_left (le_of_not_lt h)]

lemma jsMax2_ninf_num (q : ℚ) : jsMax2 .ninf (.num q) = .num q := rfl

lemma jsMin2_nums (a b : ℚ) : jsMin2 (.num a) (.num b) = .num (min a b) := by
  by_cases h : b < a
  · simp [jsMin2, JsVal.isNaN, jsLt, h, min_eq_right h.le]
  · simp [jsMin2, JsVal.isNaN, jsLt, h, min_eq_left (le_of_not_lt h)]

lemma jsMin2_inf_num (q : ℚ) : jsMin2 .inf (.num q) = .num q := rfl

lemma foldl_jsMax2_num (qs : List ℚ) (q : ℚ) :
    (qs.map JsVal.num).foldl jsMax2 (JsVal.num q) = .num (qs.foldl max q) := by
  induction qs generalizing q with
  | nil => rfl
  | cons a t ih => simp [List.foldl_cons, jsMax2_nums, ih]

lemma foldl_jsMin2_num (qs : List ℚ) (q : ℚ) :
    (qs.map JsVal.num).foldl jsMin2 (JsVal.num q) = .num (qs.foldl min q) := by
  induction qs generalizing q with
  | nil => rfl
  | cons a t ih => simp [List.foldl_cons, jsMin2_nums, ih]

lemma jsMaxList_all_num (q : ℚ) (qs : List ℚ) :
    jsMaxList ((q :: qs).map JsVal.num) = .num (qs.foldl max q) := by
  simp [jsMaxList, List.foldl_cons, jsMax2_ninf_num, foldl_jsMax2_num]

lemma jsMinList_all_num (q : ℚ) (qs : List ℚ) :
    jsMinList ((q :: qs).map JsVal.num) = .num (qs.foldl min q) := by
  simp [jsMinList, List.foldl_cons, jsMin2_inf_num, foldl_jsMin2_num]

lemma le_foldl_max (qs : List ℚ) (q : ℚ) : q ≤ qs.foldl max q := by
  induction qs generalizing q with
  | nil => exact le_refl q
  | cons a t ih => exact le_trans (le_max_left q a) (ih (max q a))

lemma foldl_max_mem (qs : List ℚ) (q : ℚ) :
    qs.foldl max q = q ∨ qs.foldl max q ∈ qs := by
  induction qs generalizing q with
  | nil => left; rfl
  | cons a t ih =>
    rw [List.foldl_cons]
    rcases ih (max q a) with h | h
    · rcases max_choice q a with hm | hm
      · left; rw [h, hm]
      · right; rw [h, hm]; exact List.mem_cons_self a t
    · right; exact List.mem_cons_of_mem a h

lemma foldl_max_ge (qs : List ℚ) (q : ℚ) : ∀ a ∈ qs, a ≤ qs.foldl max q := by
  induction qs generalizing q with
  | nil => intro a ha; cases ha
  | cons b t ih =>
    intro a ha
    rw [List.foldl_cons]
    rcases List.mem_cons.mp ha with rfl | ha
    · exact le_trans (le_max_right q a) (le_foldl_max t (max q a))
    · exact ih (max q b) a ha

lemma evalAt_eq (funcs : List CompiledFunc) (x : ℚ) (mode : EnvelopeMode) :
    evalAt funcs x mode =
      if (activePieces funcs x).isEmpty then .num 0
      else if ((activeFiniteVals funcs x).map JsVal.num).isEmpty then .num 0
      else
        match mode with
        | .max => jsMaxList ((activeFiniteVals funcs x).map JsVal.num)
        | .min => jsMinList ((activeFiniteVals funcs x).map JsVal.num) := by
  have hval : ((activePieces funcs x).map (fun f => f.func x)).filter JsVal.isFinite
      = (activeFiniteVals funcs x).map JsVal.num := by
    rw [activeFiniteVals, filter_isFinite_eq]
  rw [show evalAt funcs x mode =
      (if (activePieces funcs x).isEmpty then .num 0
       else if (((activePieces funcs x).map (fun f => f.func x)).filter JsVal.isFinite).isEmpty
         then .num 0
       else
         match mode with
         | .max => jsMaxList (((activePieces funcs x).map (fun f => f.func x)).filter JsVal.isFinite)
         | .min => jsMinList (((activePieces funcs x).map (fun f => f.func x)).filter JsVal.isFinite))
    from rfl, hval]

lemma evalAt_cases (funcs : List CompiledFunc) (x : ℚ) (mode : EnvelopeMode) :
    (activePieces funcs x = [] ∧ evalAt funcs x mode = .num 0) ∨
    (activePieces funcs x ≠ [] ∧ activeFiniteVals funcs x = [] ∧
      evalAt funcs x mode = .num 0) ∨
    (∃ q qs, activeFiniteVals funcs x = q :: qs ∧
      evalAt funcs x mode =
        .num (match mode with
              | .max => qs.foldl max q
              | .min => qs.foldl min q)) := by
  rcases hA : activePieces funcs x with _ | ⟨f0, fs⟩
  · left
    refine ⟨rfl, ?_⟩
    rw [evalAt_eq, hA]
    rfl
  · rcases hV : activeFiniteVals funcs x with _ | ⟨q, qs⟩
    · right; left
      refine ⟨by simp [hA], rfl, ?_⟩
      rw [evalAt_eq, hA, hV]
      rfl
    · right; right
      refine ⟨q, qs, rfl, ?_⟩
      rw [evalAt_eq, hA, hV]
      cases mode
      · simpa using jsMaxList_all_num q qs
      · simpa using jsMinList_all_num q qs

lemma evalAt_finite (funcs : List CompiledFunc) (x : ℚ) (mode : EnvelopeMode) :
    (evalAt funcs x mode).isFinite = true := by
  rcases evalAt_cases funcs x mode with ⟨_, h⟩ | ⟨_, _, h⟩ | ⟨q, qs, _, h⟩ <;> rw [h] <;> rfl

lemma hasInvalid_envelopes (upper lower : List CompiledFunc) (xs : List ℚ) :
    hasInvalid (evaluatePiecewise upper xs EnvelopeMode.max)
      (evaluatePiecewise lower xs EnvelopeMode.max) = false := by
  rw [hasInvalid, Bool.or_eq_false_iff]
  constructor <;>
  · rw [List.any_eq_false]
    intro v hv
    rcases List.mem_map.mp hv with ⟨x, _, rfl⟩
    simp [evalAt_finite]

lemma radiiRule_eq (u l : ℚ) :
    (if u * l < 0 then (max |u| |l|, (0 : ℚ)) else (max |u| |l|, min |u| |l|))
      = crossAxisSpecRadii u l := by
  rw [crossAxisSpecRadii]
  by_cases h : u * l < 0
  · rw [if_pos h, if_pos (mul_neg_iff.mp h)]
  · rw [if_neg h, if_neg (fun hc => h (mul_neg_iff.mpr hc))]

lemma foldl_pair_sum (F G : ℕ → ℚ) (l : List ℕ) (p : ℚ × ℚ) :
    l.foldl (fun acc i => (acc.1 + F i, acc.2 + G i)) p
      = (p.1 + (l.map F).sum, p.2 + (l.map G).sum) := by
  induction l generalizing p with
  | nil => simp
  | cons a t ih => simp [List.foldl_cons, ih, add_assoc]

lemma range_map_sum (F : ℕ → ℚ) (n : ℕ) :
    ((List.range n).map F).sum = ∑ i in Finset.range n, F i := by
  induction n with
  | zero => simp
  | succ n ih =>
    rw [List.range_succ, List.map_append, List.sum_append, Finset.sum_range_succ, ih]
    simp

lemma quadSums_eq (yU yL : List ℚ) (dx : ℚ) :
    quadSums yU yL dx =
      (∑ i in Finset.range quadN,
         ((quadRadii (uAvg yU i) (uAvg yL i)).1 * (quadRadii (uAvg yU i) (uAvg yL i)).1 -
           (quadRadii (uAvg yU i) (uAvg yL i)).2 * (quadRadii (uAvg yU i) (uAvg yL i)).2) * dx,
       ∑ i in Finset.range quadN, |uAvg yU i - uAvg yL i| * dx) := by
  rw [quadSums,
    show quadStep yU yL dx = (fun (acc : ℚ × ℚ) (i : ℕ) =>
      (acc.1 + ((quadRadii (uAvg yU i) (uAvg yL i)).1 * (quadRadii (uAvg yU i) (uAvg yL i)).1 -
          (quadRadii (uAvg yU i) (uAvg yL i)).2 * (quadRadii (uAvg yU i) (uAvg yL i)).2) * dx,
       acc.2 + |uAvg yU i - uAvg yL i| * dx)) from rfl,
    foldl_pair_sum, range_map_sum, range_map_sum]
  simp

lemma quadSums_fst (yU yL : List ℚ) (dx : ℚ) :
    (quadSums yU yL dx).1 =
      ∑ i in Finset.range quadN,
        ((quadRadii (uAvg yU i) (uAvg yL i)).1 * (quadRadii (uAvg yU i) (uAvg yL i)).1 -
          (quadRadii (uAvg yU i) (uAvg yL i)).2 * (quadRadii (uAvg yU i) (uAvg yL i)).2) * dx := by
  rw [quadSums_eq]

lemma quadSums_snd (yU yL : List ℚ) (dx : ℚ) :
    (quadSums yU yL dx).2 =
      ∑ i in Finset.range quadN, |uAvg yU i - uAvg yL i| * dx := by
  rw [quadSums_eq]

/-!  Claim theorems. -/

/-- C1 (amended): the boolean invalid flag of `updateSolid` is never
raised, for any curve groups and any sample sites: the envelope
resolver discards non-finite per-piece evaluations and substitutes 0
(both for an empty active set and for an all-non-finite active set), so
every sampled boundary value is finite and the check
`yOuter.some(v => !isFinite(v)) || yInner.some(v => !isFinite(v))` is
always false; consequently the mesh/profile outputs are never
withheld. -/
theorem invalid_flag_never_raised (upper lower : List CompiledFunc) (xs : List ℚ) :
    hasInvalid (evaluatePiecewise upper xs EnvelopeMode.max)
      (evaluatePiecewise lower xs EnvelopeMode.max) = false :=
  hasInvalid_envelopes upper lower xs

/-- C1 counterexample: the compiled formula `sqrt(-1-x^2)` on the
bound range [0, 1] evaluates to a non-finite value at every
display-resolution sample site, yet the invalid check of `updateSolid`
computes false, so the flag is not raised and the mesh output is not
suppressed — contradicting the claim that such a formula raises the
invalid flag. -/
theorem invalid_flag_counterexample :
    (∀ x : ℚ, (sqrtNegPiece.func x).isFinite = false) ∧
    hasInvalid (evaluatePiecewise [sqrtNegPiece] (sampleXs 0 1) EnvelopeMode.max)
      (evaluatePiecewise [sqrtNegPiece] (sampleXs 0 1) EnvelopeMode.max) = false :=
  ⟨fun _ => rfl, hasInvalid_envelopes [sqrtNegPiece] [sqrtNegPiece] (sampleXs 0 1)⟩

/-- C2: at every x-site the piecewise resolver (called with mode max
for the upper group and for the lower group alike, src/app.js lines 604
and 623) yields: 0 when no piece's evaluated domain contains x
inclusively; 0 when every active evaluation is non-finite; and
otherwise the maximum of the finite evaluations of the active
pieces. -/
theorem evaluatePiecewise_max_spec (funcs : List CompiledFunc) (x : ℚ) :
    (activePieces funcs x = [] → evalAt funcs x EnvelopeMode.max = .num 0) ∧
    (activeFiniteVals funcs x = [] → evalAt funcs x EnvelopeMode.max = .num 0) ∧
    (activeFiniteVals funcs x ≠ [] →
      ∃ m, evalAt funcs x EnvelopeMode.max = .num m ∧ m ∈ activeFiniteVals funcs x ∧
        ∀ q ∈ activeFiniteVals funcs x, q ≤ m) := by
  rcases evalAt_cases funcs x EnvelopeMode.max with ⟨hA, h⟩ | ⟨hA, hV, h⟩ | ⟨q, qs, hV, h⟩
  · have hV : activeFiniteVals funcs x = [] := by
      rw [activeFiniteVals, hA]; rfl
    exact ⟨fun _ => h, fun _ => h, fun hne => absurd hV hne⟩
  · exact ⟨fun _ => h, fun _ => h, fun hne => absurd hV hne⟩
  · refine ⟨?_, ?_, ?_⟩
    · intro hA
      rw [activeFiniteVals, hA] at hV
      cases hV
    · intro h0
      rw [h0] at hV
      cases hV
    · intro _
      refine ⟨qs.foldl max q, h, ?_, ?_⟩
      · rw [hV]
        rcases foldl_max_mem qs q with hm | hm
        · rw [hm]; exact List.mem_cons_self q qs
        · exact List.mem_cons_of_mem q hm
      · intro r hr
        rw [hV] at hr
        rcases List.mem_cons.mp hr with rfl | hr
        · exact le_foldl_max qs r
        · exact foldl_max_ge qs q r hr

/-- C2 witness: the identity piece at x = 1 has a non-empty set of
finite active evaluations, and the resolved value is their maximum. -/
theorem evaluatePiecewise_max_spec_w :
    activeFiniteVals c2Demo 1 ≠ [] ∧
    (∃ m, evalAt c2Demo 1 EnvelopeMode.max = .num m ∧ m ∈ activeFiniteVals c2Demo 1 ∧
      ∀ q ∈ activeFiniteVals c2Demo 1, q ≤ m) :=
  ⟨by decide, (evaluatePiecewise_max_spec c2Demo 1).2.2 (by decide)⟩

/-- C3: the cross-axis/washer rule — outer radius max(|u|, |l|), inner
radius 0 when u and l have strictly opposite sign and min(|u|, |l|)
otherwise — is applied identically in the lathe mesh path, the disk
mesh path, and the quadrature path. -/
theorem crossAxis_rule_all_paths (u l : ℚ) :
    latheRadii u l = crossAxisSpecRadii u l ∧
    diskRadii u l = crossAxisSpecRadii u l ∧
    quadRadii u l = crossAxisSpecRadii u l :=
  ⟨radiiRule_eq u l, radiiRule_eq u l, radiiRule_eq u l⟩

set_option maxRecDepth 8000 in
/-- C4: over the 1000 equal quadrature sub-intervals with
endpoint-averaged samples and the cross-axis/washer radii,
`updateMeasurements` computes
volume = |π * (Σ (rOuter² - rInner²) * dx) * (angleDeg / 360)| and
area2D = Σ |upperAvg - lowerAvg| * dx, and the area2D component does
not depend on the revolution angle. -/
theorem updateMeasurements_spec (upper lower : List CompiledFunc) (a b θ : ℚ) :
    (updateMeasurements upper lower a b θ).1
      = specVolume (envelopeQ upper (quadXs a b)) (envelopeQ lower (quadXs a b))
          ((b - a) / (quadN : ℚ)) θ ∧
    (updateMeasurements upper lower a b θ).2
      = specArea (envelopeQ upper (quadXs a b)) (envelopeQ lower (quadXs a b))
          ((b - a) / (quadN : ℚ)) ∧
    ∀ θ' : ℚ, (updateMeasurements upper lower a b θ').2
      = (updateMeasurements upper lower a b θ).2 := by
  have hsum : ∀ yU yL : List ℚ, ∀ i : ℕ,
      ((quadRadii (uAvg yU i) (uAvg yL i)).1 * (quadRadii (uAvg yU i) (uAvg yL i)).1 -
        (quadRadii (uAvg yU i) (uAvg yL i)).2 * (quadRadii (uAvg yU i) (uAvg yL i)).2)
      = ((crossAxisSpecRadii (uAvg yU i) (uAvg yL i)).1 ^ 2 -
          (crossAxisSpecRadii (uAvg yU i) (uAvg yL i)).2 ^ 2) := by
    intro yU yL i
    rw [show quadRadii (uAvg yU i) (uAvg yL i) = crossAxisSpecRadii (uAvg yU i) (uAvg yL i)
      from radiiRule_eq _ _, pow_two, pow_two]
  have hq : ∀ yU yL : List ℚ, ∀ dx : ℚ,
      (∑ i in Finset.range quadN,
        ((quadRadii (uAvg yU i) (uAvg yL i)).1 * (quadRadii (uAvg yU i) (uAvg yL i)).1 -
          (quadRadii (uAvg yU i) (uAvg yL i)).2 * (quadRadii (uAvg yU i) (uAvg yL i)).2) * dx)
      = ∑ i in Finset.range quadN,
        ((crossAxisSpecRadii (uAvg yU i) (uAvg yL i)).1 ^ 2 -
          (crossAxisSpecRadii (uAvg yU i) (uAvg yL i)).2 ^ 2) * dx := by
    intro yU yL dx
    refine Finset.sum_congr rfl (fun i _ => ?_)
    rw [hsum]
  refine ⟨?_, ?_, fun θ' => rfl⟩
  · show |Real.pi * (((quadSums (envelopeQ upper (quadXs a b)) (envelopeQ lower (quadXs a b))
        ((b - a) / (quadN : ℚ))).1 : ℚ) : ℝ) * ((θ : ℝ) / 360)| = _
    rw [specVolume, quadSums_fst, hq]
  · show (quadSums (envelopeQ upper (quadXs a b)) (envelopeQ lower (quadXs a b))
        ((b - a) / (quadN : ℚ))).2 = _
    rw [specArea, quadSums_snd]

lemma isFinite_num (v : JsVal) (h : v.isFinite = true) : ∃ q, v = .num q := by
  cases v with
  | num q => exact ⟨q, rfl⟩
  | inf => simp [JsVal.isFinite] at h
  | ninf => simp [JsVal.isFinite] at h
  | nan => simp [JsVal.isFinite] at h

lemma normalizeBounds_num_lt (qa qb : ℚ) :
    jsLt (normalizeBounds (.num qa) (.num qb)).1 (normalizeBounds (.num qa) (.num qb)).2
      = true := by
  have key : ∀ u v : ℚ, u ≤ v →
      jsLt (if jsLt (jsAbs (jsSub (JsVal.num u) (JsVal.num v))) (JsVal.num (1 / 100))
            then (JsVal.num u, jsAdd (JsVal.num u) (JsVal.num (1 / 100)))
            else (JsVal.num u, JsVal.num v)).1
        (if jsLt (jsAbs (jsSub (JsVal.num u) (JsVal.num v))) (JsVal.num (1 / 100))
            then (JsVal.num u, jsAdd (JsVal.num u) (JsVal.num (1 / 100)))
            else (JsVal.num u, JsVal.num v)).2 = true := by
    intro u v huv
    by_cases hn : |u - v| < 1 / 100
    · rw [if_pos (show jsLt (jsAbs (jsSub (JsVal.num u) (JsVal.num v))) (JsVal.num (1 / 100))
          = true from decide_eq_true hn)]
      exact decide_eq_true (show u < u + 1 / 100 by linarith)
    · rw [if_neg (show ¬ jsLt (jsAbs (jsSub (JsVal.num u) (JsVal.num v))) (JsVal.num (1 / 100))
          = true from fun hc => hn (of_decide_eq_true hc))]
      have hvu : ¬(v - u < 1 / 100) := by
        intro hc
        exact hn (by rw [abs_sub_comm, abs_of_nonneg (by linarith)]; exact hc)
      exact decide_eq_true (show u < v by linarith)
  rw [normalizeBounds]
  by_cases hab : qb < qa
  · rw [if_pos (show jsGt (JsVal.num qa) (JsVal.num qb) = true from decide_eq_true hab)]
    exact key qb qa hab.le
  · rw [if_neg (show ¬ jsGt (JsVal.num qa) (JsVal.num qb) = true
      from fun hc => hab (of_decide_eq_true hc))]
    exact key qa qb (le_of_not_lt hab)

/-- C5 counterexample: a bound formula such as `1/0` evaluates to
Infinity, which the NaN-only fallback of lines 579-580 passes through
unchanged; the normalization of lines 588-589 then leaves the pair
(Infinity, Infinity) as it is — the swap test `Infinity > Infinity` is
false and `Math.abs(Infinity - Infinity)` is NaN, so the nudge does not
fire — and the claimed strict invariant a < b fails. -/
theorem bounds_normalization_counterexample :
    boundFallback .inf = .inf ∧
    normalizeBounds .inf .inf = (.inf, .inf) ∧
    jsLt (normalizeBounds .inf .inf).1 (normalizeBounds .inf .inf).2 = false :=
  ⟨rfl, rfl, rfl⟩

/-- C5 (amended): whenever both evaluated bounds are finite (the only
case the claim can survive: NaN is replaced by 0 before these lines,
but an evaluated Infinity reaches them unchanged and defeats the
invariant), the swap-and-nudge normalization yields strictly ordered
bounds; and the inputs (5, 1) and (1, 5) normalize identically, hence
produce the same volume and area2D measurements. -/
theorem bounds_normalization_amended (a b : JsVal)
    (ha : a.isFinite = true) (hb : b.isFinite = true) :
    jsLt (normalizeBounds a b).1 (normalizeBounds a b).2 = true ∧
    normalizeBounds (.num 5) (.num 1) = normalizeBounds (.num 1) (.num 5) ∧
    ∀ (upper lower : List CompiledFunc) (θ : ℚ),
      updateMeasurements upper lower ((normalizeBounds (.num 5) (.num 1)).1).toQ
          ((normalizeBounds (.num 5) (.num 1)).2).toQ θ
        = updateMeasurements upper lower ((normalizeBounds (.num 1) (.num 5)).1).toQ
            ((normalizeBounds (.num 1) (.num 5)).2).toQ θ := by
  have h51 : normalizeBounds (.num 5) (.num 1) = (.num 1, .num 5) := by
    rw [normalizeBounds]
    rw [if_pos (show jsGt (JsVal.num 5) (JsVal.num 1) = true
      from decide_eq_true (show (1 : ℚ) < 5 by norm_num))]
    rw [if_neg (show ¬ jsLt (jsAbs (jsSub (JsVal.num 1) (JsVal.num 5))) (JsVal.num (1 / 100))
        = true from fun hc => by
      have hq : |(1 : ℚ) - 5| < 1 / 100 := of_decide_eq_true hc
      norm_num at hq)]
  have h15 : normalizeBounds (.num 1) (.num 5) = (.num 1, .num 5) := by
    rw [normalizeBounds]
    rw [if_neg (show ¬ jsGt (JsVal.num 1) (JsVal.num 5) = true from fun hc => by
      have hq : (5 : ℚ) < 1 := of_decide_eq_true hc
      norm_num at hq)]
    rw [if_neg (show ¬ jsLt (jsAbs (jsSub (JsVal.num 1) (JsVal.num 5))) (JsVal.num (1 / 100))
        = true from fun hc => by
      have hq : |(1 : ℚ) - 5| < 1 / 100 := of_decide_eq_true hc
      norm_num at hq)]
  refine ⟨?_, by rw [h51, h15], fun upper lower θ => by rw [h51, h15]⟩
  obtain ⟨qa, rfl⟩ := isFinite_num a ha
  obtain ⟨qb, rfl⟩ := isFinite_num b hb
  exact normalizeBounds_num_lt qa qb

/-- C5 witness: at the concrete finite bounds 5 and 1, the normalized
pair is strictly ordered. -/
theorem bounds_normalization_amended_w :
    jsLt (normalizeBounds (JsVal.num 5) (JsVal.num 1)).1
      (normalizeBounds (JsVal.num 5) (JsVal.num 1)).2 = true :=
  (bounds_normalization_amended (JsVal.num 5) (JsVal.num 1) rfl rfl).1

/-- C6 (code behavior at the failing input): `preprocessInput` is a
purely textual rewriting with no identifier validation — the
non-whitelisted identifier `fetch` is not in the mapping table and
passes through the whole pipeline verbatim, so the string handed to the
Function-constructor evaluator of `safeEval` still contains it, where
it resolves to the host global of that name. -/
theorem sandbox_leak_fetch :
    preprocessInput "fetch(x)" = "fetch(x)" ∧
    mathFunctionsSorted.all (fun kv => !(kv.1 == "fetch".toList)) = true := by
  constructor
  · decide
  · decide

/-- C7: the formulas `2sin(x)` and `2*sin(x)` rewrite to the same
compiled source string (hence any evaluator produces identical outputs
at every x); `log3(9)` rewrites to the two-argument base form whose
value ln(9)/ln(3) is exactly 2; and `log(100)` rewrites to the base-10
logarithm whose value at 100 is exactly 2. -/
theorem formula_rewriting_spec :
    preprocessInput "2sin(x)" = preprocessInput "2*sin(x)" ∧
    (∀ (E : String → ℚ → ℝ) (x : ℚ),
      E (preprocessInput "2sin(x)") x = E (preprocessInput "2*sin(x)") x) ∧
    preprocessInput "log3(9)" = "log_base(3,9)" ∧
    log_base 3 9 = 2 ∧
    preprocessInput "log(100)" = "Math.log10(100)" ∧
    mathLog10 100 = 2 := by
  have h1 : preprocessInput "2sin(x)" = preprocessInput "2*sin(x)" := by decide
  refine ⟨h1, fun E x => by rw [h1], by decide, ?_, by decide, ?_⟩
  · have h3 : Real.log 3 ≠ 0 := ne_of_gt (Real.log_pos (by norm_num))
    rw [log_base, show (9 : ℝ) = 3 ^ (2 : ℕ) by norm_num, Real.log_pow,
      mul_div_assoc, div_self h3, mul_one]
    norm_num
  · have h10 : Real.log 10 ≠ 0 := ne_of_gt (Real.log_pos (by norm_num))
    rw [mathLog10, Real.logb, show (100 : ℝ) = 10 ^ (2 : ℕ) by norm_num, Real.log_pow,
      mul_div_assoc, div_self h10, mul_one]
    norm_num

/-- C8: `safeEval` maps every evaluation outcome to a JavaScript
number (it is a total function into JsVal): a thrown exception becomes
NaN, a non-number result becomes NaN, and a number result (finite or
not) is passed through — no failure escapes as an exception. -/
theorem safeEval_total_spec :
    (∀ e : Unit, safeEval (Except.error e) = .nan) ∧
    safeEval (Except.ok JsResult.nonNumber) = .nan ∧
    (∀ v : JsVal, safeEval (Except.ok (JsResult.number v)) = v) :=
  ⟨fun _ => rfl, rfl, fun _ => rfl⟩

/-- C9: domain-range failures are absorbed, never fatal: a piece whose
evaluated domain start is strictly greater than its evaluated end is
active at no x, and a bound whose evaluation is NaN falls back to the
default 0. -/
theorem domain_failures_soft (f : CompiledFunc) (x : ℚ) (v : JsVal) :
    (jsGt f.rangeStart f.rangeEnd = true → activeAt x f = false) ∧
    (v.isNaN = true → boundFallback v = .num 0) := by
  constructor
  · intro h
    rw [jsGt] at h
    rw [activeAt, jsGe]
    rcases hs : f.rangeStart with s | _ | _ | _ <;>
      rcases he : f.rangeEnd with e | _ | _ | _ <;>
        rw [hs, he] at h <;> simp [jsLt] at h <;> simp [jsLe]
    intro h1
    exact lt_of_lt_of_le h h1
  · intro hv
    rw [boundFallback, if_pos hv]

/-- C9 witness: the piece with reversed domain [2, 1] is inactive at
x = 0, and a NaN bound falls back to 0. -/
theorem domain_failures_soft_w :
    activeAt 0 badRangePiece = false ∧ boundFallback .nan = .num 0 :=
  ⟨(domain_failures_soft badRangePiece 0 .nan).1 (by decide),
   (domain_failures_soft badRangePiece 0 .nan).2 (by decide)⟩

/-- C10: every value in the sampled envelope returned by
`evaluatePiecewise` is a finite number, for every function list, every
sequence of x-sites and both modes — non-finite per-piece evaluations
are filtered out, and the empty-active-set and all-non-finite cases
both yield 0 — so the caller's non-finite check can never find a
non-finite boundary sample. -/
theorem envelope_values_finite (funcs : List CompiledFunc) (xs : List ℚ)
    (mode : EnvelopeMode) :
    ∀ v ∈ evaluatePiecewise funcs xs mode, v.isFinite = true := by
  intro v hv
  rcases List.mem_map.mp hv with ⟨x, _, rfl⟩
  exact evalAt_finite funcs x mode

/-- C10 witness: the envelope of the identity piece sampled at x = 1
contains the value 1, which is finite. -/
theorem envelope_values_finite_w :
    JsVal.num 1 ∈ evaluatePiecewise c2Demo [1] EnvelopeMode.max ∧
    (JsVal.num 1).isFinite = true :=
  ⟨by decide, envelope_values_finite c2Demo [1] EnvelopeMode.max (JsVal.num 1) (by decide)⟩
